import Mathlib

/-!
# A multi-factor stock-selection backtester, verified against its specification

This file gives a shallow embedding of the core of the repository
(`test/backtest.py`, `test/factor_model.py`, and the report variant under
`Simple multi-factor stock selection model/backtest.py`) and proves or refutes
the specification's claims about it.

Modelling conventions:
* Python floats are modelled as exact rationals (`ℚ`); decimal constants in the
  source (`0.0001`, `0.0002`, `0.0003`, `5`) are taken at their decimal value.
* A pandas scalar that is `NaN` or `±inf` is modelled as `Option.none`; both are
  treated as "invalid" by the cross-sectional normalization in the source, which
  is the only place downstream where the distinction could matter.
* Python `dict`s (insertion-ordered) are modelled as association lists in
  insertion order; deleting a key is `List.eraseP`, adding a fresh key appends.
* A raised Python exception is modelled with `Except PyErr`; the two exceptions
  reachable in the embedded code paths are `IndexError` (empty positional index
  `[-1]` during holiday carry-forward) and `ZeroDivisionError` (allocating over
  an empty selection).
* `int(x)` in Python truncates toward zero; `pyInt` reproduces that on `ℚ`.
-/

namespace MultiFactor

/-- Stock identifier (`code` in the source). -/
abbrev Code := String

/-- Trading dates are abstracted to naturals, ordered like the source's
`pd.Timestamp` index. -/
abbrev Date := ℕ

/-- One instrument's price history: `(date, close)` pairs in index order.
Only the close column (`收盘`) is read by the backtester. -/
abbrev PriceSeries := List (Date × ℚ)

/-- Source: `date in data.index` in the source. -/
def hasDate (s : PriceSeries) (d : Date) : Bool :=
  s.any (fun p => p.1 == d)

/-- Source: `data.loc[date, '收盘']` in the source (dates are unique in a price index;
a missing date is never looked up because every lookup is guarded by
`hasDate`). -/
def closeAt (s : PriceSeries) (d : Date) : ℚ :=
  ((s.find? (fun p => p.1 == d)).map Prod.snd).getD 0

/-- Source: `data[data.index <= date]`: the history snapshot available at `d`. -/
def histUpTo (s : PriceSeries) (d : Date) : PriceSeries :=
  s.filter (fun p => p.1 ≤ d)

/-- Source: `data.index[data.index < date][-1]` followed by `.loc[..., '收盘']`:
the most recent strictly-prior close, if any prior row exists. -/
def priorClose (s : PriceSeries) (d : Date) : Option ℚ :=
  ((s.filter (fun p => p.1 < d)).getLast?).map Prod.snd

/-- Python `int` on a rational: truncation toward zero. -/
def pyInt (x : ℚ) : ℤ :=
  if x < 0 then -(⌊-x⌋) else ⌊x⌋

/-- The exceptions reachable in the embedded code paths.  Note that a Python
`IndexError` raised by `index[-1]` on an empty index carries only the constant
message `"index -1 is out of bounds for axis 0 with size 0"`; it has no field
naming a stock or a date, which is why the constructor has no arguments. -/
inductive PyErr
  | indexError
  | zeroDivError
  deriving DecidableEq, Repr

/-- Trade side. -/
inductive Side
  | buy
  | sell
  deriving DecidableEq, Repr

/-- One entry of `self.trade_history` in `test/backtest.py`.  Field `value`
holds what the source stores: `shares * buy_price` for a buy, but the *net*
proceeds (`actual_value`) for a sell. -/
structure Trade where
  date : Date
  code : Code
  side : Side
  price : ℚ
  shares : ℕ
  value : ℚ
  commission : ℚ
  deriving DecidableEq, Repr

/-- The mutable portfolio state of `Backtest`: cash, the positions dict
(insertion-ordered `code ↦ shares`), and the append-only trade ledger. -/
structure BTState where
  cash : ℚ
  positions : List (Code × ℕ)
  trades : List Trade
  deriving DecidableEq, Repr

/-- Source: `self.commission_rate_buy = 0.0001`. -/
def commissionRateBuy : ℚ := 1 / 10000

/-- Source: `self.commission_rate_sell = 0.0003`. -/
def commissionRateSell : ℚ := 3 / 10000

/-- Source: `self.min_commission = 5`. -/
def minCommission : ℚ := 5

/-- Source: `self.slippage = 0.0002`. -/
def slippage : ℚ := 1 / 5000

/-- Source: `Backtest.calculate_commission`. -/
def calculate_commission (value : ℚ) (isBuy : Bool) : ℚ :=
  max (value * (if isBuy then commissionRateBuy else commissionRateSell)) minCommission

/-- Source: `Backtest.apply_slippage`. -/
def apply_slippage (price : ℚ) (isBuy : Bool) : ℚ :=
  if isBuy then price * (1 + slippage) else price * (1 - slippage)

/-- The full stock-data input: `code ↦ DataFrame`, in dict insertion order. -/
abbrev StockData := List (Code × PriceSeries)

/-- Source: `self.stock_data[code]` (every access in the source is to a key that is
known to be present). -/
def lookupSeries (sd : StockData) (c : Code) : PriceSeries :=
  ((sd.find? (fun p => p.1 == c)).map Prod.snd).getD []

/-- Source: `self.positions[code]`. -/
def lookupShares (ps : List (Code × ℕ)) (c : Code) : ℕ :=
  ((ps.find? (fun p => p.1 == c)).map Prod.snd).getD 0

/-- Stable insertion used to model Python's stable `list.sort(key=score,
reverse=True)`: the new element goes in front of the first element whose score
is ≤ its own, so earlier-listed elements stay ahead of later equal-score
ones. -/
def insertDesc (x : Code × ℚ) : List (Code × ℚ) → List (Code × ℚ)
  | [] => [x]
  | h :: t => if x.2 < h.2 then h :: insertDesc x t else x :: h :: t

/-- Source: `selected_stocks.sort(key=lambda x: x[1], reverse=True)`: the unique stable
descending reordering of the input (Python's timsort is stable). -/
def sortDesc (l : List (Code × ℚ)) : List (Code × ℚ) :=
  l.foldr insertDesc []

/-- Source: `selected_stocks[:self.top_n]` after the stable descending sort
(`test/backtest.py` lines 159–161). -/
def selectTop (scores : List (Code × ℚ)) (n : ℕ) : List (Code × ℚ) :=
  (sortDesc scores).take n

/-- Source: `set(a) == set(b)` on code lists. -/
def sameSetB (a b : List Code) : Bool :=
  a.all b.contains && b.all a.contains

/-- One iteration of the sell loop (`test/backtest.py` lines 212–234): if
`code` is not in the selection and has a quote today, liquidate it at the
slippage-adjusted close, pay `max(sell_rate × gross, min_commission)`, credit
the net proceeds, record the trade, and delete the position.  A held code with
no quote today, or one that is still selected, is left untouched. -/
def sellStep (sd : StockData) (date : Date) (selectedCodes : List Code)
    (st : BTState) (code : Code) : BTState :=
  if selectedCodes.contains code then st
  else
    let s := lookupSeries sd code
    if hasDate s date then
      let closePrice := closeAt s date
      let sellPrice := apply_slippage closePrice false
      let sh := lookupShares st.positions code
      let positionValue := (sh : ℚ) * sellPrice
      let commission := calculate_commission positionValue false
      let actualValue := positionValue - commission
      { cash := st.cash + actualValue
        positions := st.positions.eraseP (fun p => p.1 == code)
        trades := st.trades ++ [⟨date, code, .sell, sellPrice, sh, actualValue, commission⟩] }
    else st

/-- The sell phase: iterate `sellStep` over a snapshot of the currently held
codes (`for code in list(self.positions.keys())`). -/
def sellPhase (sd : StockData) (date : Date) (selectedCodes : List Code)
    (st : BTState) : BTState :=
  (st.positions.map Prod.fst).foldl (sellStep sd date selectedCodes) st

/-- One buy (`test/backtest.py` lines 179–202 and 245–268, identical): price
is the slippage-adjusted close, commission is charged on the *intended*
notional `perStockValue`, and the share count is the capital left after
commission divided by price, truncated down to a whole lot of 100.  If that is
not at least one lot, the buy is skipped and the state is unchanged. -/
def buyStep (sd : StockData) (date : Date) (perStockValue : ℚ)
    (st : BTState) (code : Code) : BTState :=
  let s := lookupSeries sd code
  if hasDate s date then
    let closePrice := closeAt s date
    let buyPrice := apply_slippage closePrice true
    let commission := calculate_commission perStockValue true
    let actualValue := perStockValue - commission
    let shares : ℤ := pyInt (actualValue / buyPrice / 100) * 100
    if 0 < shares then
      { cash := st.cash - ((shares : ℚ) * buyPrice + commission)
        positions := st.positions ++ [(code, shares.toNat)]
        trades := st.trades ++
          [⟨date, code, .buy, buyPrice, shares.toNat, (shares : ℚ) * buyPrice, commission⟩] }
    else st
  else st

/-- The allocation phase: buy each listed code with the same per-stock
capital.  (The iteration order over Python's `new_stocks` *set* is
unspecified; we iterate in selection order.  No observable of any claim
depends on the order: each buy reads only its own quote and the fixed
`perStockValue`, and debits cash by its own amount.) -/
def buyPhase (sd : StockData) (date : Date) (perStockValue : ℚ)
    (codes : List Code) (st : BTState) : BTState :=
  codes.foldl (buyStep sd date perStockValue) st

/-- Pre-trade mark-to-market (`test/backtest.py` lines 167–173): cash plus
each held position at today's close, counting only positions that have a quote
today. -/
def currentTotalValue (sd : StockData) (date : Date) (st : BTState) : ℚ :=
  st.cash + st.positions.foldl
    (fun acc p =>
      if hasDate (lookupSeries sd p.1) date then
        acc + (p.2 : ℚ) * closeAt (lookupSeries sd p.1) date
      else acc)
    0

/-- The scoring engine handed to the backtester (`factor_model` followed by
`calculate_technical_factors` + `calculate_final_score`): from the available
history snapshot to the ordered `final_scores` mapping. -/
abbrev ScoreFn := StockData → List (Code × ℚ)

/-- The available-history snapshot built at a rebalance boundary
(`test/backtest.py` lines 147–153): every instrument quoted today, with its
price series truncated to dates up to and including today. -/
def availableStocks (sd : StockData) (date : Date) : StockData :=
  sd.filterMap
    (fun p =>
      if hasDate p.2 date then
        let hist := histUpTo p.2 date
        if !hist.isEmpty then some (p.1, hist) else none
      else none)

/-- The rebalance branch of `Backtest.run_backtest` (lines 145–270): build the
available-history snapshot, score and select, then either establish initial
positions (when nothing is held: equal split of the marked total over all
selected codes — a `ZeroDivisionError` if the selection is empty), or, when
the holding set differs from the selection, sell the dropped names and split
the remaining cash equally over the newly entering ones.  (The source adds
`self.position_values` into the remaining value, but that dict is never
written and is always empty.) -/
def rebalanceStep (sd : StockData) (scoreFn : ScoreFn) (topN : ℕ)
    (date : Date) (st : BTState) : Except PyErr BTState :=
  let available : StockData := availableStocks sd date
  if available.isEmpty then .ok st
  else
    let finalScores := scoreFn available
    let selectedCodes := (selectTop finalScores topN).map Prod.fst
    let totalValue := currentTotalValue sd date st
    if st.positions.isEmpty then
      if selectedCodes.length = 0 then .error .zeroDivError
      else
        .ok (buyPhase sd date (totalValue / (selectedCodes.length : ℚ)) selectedCodes st)
    else
      let currentHoldings := st.positions.map Prod.fst
      if sameSetB currentHoldings selectedCodes then .ok st
      else
        let st1 := sellPhase sd date selectedCodes st
        let remainingValue := st1.cash
        let newStocks := selectedCodes.filter (fun c => !currentHoldings.contains c)
        if newStocks.isEmpty then .ok st1
        else
          .ok (buyPhase sd date (remainingValue / (newStocks.length : ℚ)) newStocks st1)

/-- End-of-day valuation (`test/backtest.py` lines 272–289): cash plus each
held position at today's close, or at the most recent strictly-prior close if
today has no quote for it.  A held position with no usable close at all makes
`index[-1]` raise `IndexError`, aborting the run; a missing price is never
replaced by zero. -/
def dailyValue (sd : StockData) (date : Date) (st : BTState) : Except PyErr ℚ :=
  st.positions.foldlM
    (fun acc p =>
      let s := lookupSeries sd p.1
      if hasDate s date then
        .ok (acc + (p.2 : ℚ) * closeAt s date)
      else
        match priorClose s date with
        | some c => .ok (acc + (p.2 : ℚ) * c)
        | none => .error .indexError)
    st.cash

/-- The running state of `run_backtest`: the portfolio plus the
`self.portfolio_value` series (seeded with the initial 50 000) and the
`self.returns` series. -/
structure RunState where
  bt : BTState
  portfolioValue : List ℚ
  returns : List ℚ
  deriving DecidableEq, Repr

/-- One iteration of the day loop of `run_backtest`: rebalance when the
zero-based day index is a multiple of the period and a factor model is
attached, then value the book, then append the day's value and return
(`daily_return = value / previous_value − 1`, 0 on day 0 or when the previous
value is not positive). -/
def dayStep (sd : StockData) (scoreFn : Option ScoreFn) (period topN : ℕ)
    (rs : RunState) (i : ℕ) (date : Date) : Except PyErr RunState := do
  let st ←
    match scoreFn with
    | some f => if i % period = 0 then rebalanceStep sd f topN date rs.bt else .ok rs.bt
    | none => .ok rs.bt
  let currentTotal ← dailyValue sd date st
  let dailyReturn :=
    if 0 < i then
      let prev := rs.portfolioValue.getLastD 0
      if 0 < prev then currentTotal / prev - 1 else 0
    else 0
  .ok ⟨st, rs.portfolioValue ++ [currentTotal], rs.returns ++ [dailyReturn]⟩

/-- The state `run_backtest` starts from: 50 000 cash, no positions, no
trades, `portfolio_value = [50000]`, no returns. -/
def initRunState : RunState :=
  ⟨⟨50000, [], []⟩, [50000], []⟩

/-- Source: `Backtest.run_backtest` over an explicit trading-day calendar (the
source's `pd.date_range(start, end)`).  An empty stock-data dict returns
immediately with the freshly initialized state. -/
def runBacktest (sd : StockData) (scoreFn : Option ScoreFn) (period topN : ℕ)
    (dates : List Date) : Except PyErr RunState :=
  if sd.isEmpty then .ok initRunState
  else
    dates.enum.foldlM
      (fun rs p => dayStep sd scoreFn period topN rs p.1 p.2) initRunState

/-! ## Factor model (`test/factor_model.py`)

A pandas scalar is modelled as `Option ℚ`: `none` stands for `NaN` or `±inf`,
which the cross-sectional normalization treats identically (both are filtered
out of the valid subset and overwritten with the penalty score). -/

/-- The shapes of input that `calculate_rsi` / `calculate_volatility` /
`calculate_momentum` distinguish: not a `DataFrame` at all, a frame without
the `收盘` (close) column, a frame whose close column raises on
`astype(float)` (the exception is caught), or a well-formed close series. -/
inductive PriceFrame
  | notDataFrame
  | missingClose (rows : ℕ)
  | badClose (rows : ℕ)
  | closes (vals : List ℚ)
  deriving DecidableEq, Repr

/-- Mean of a list (`Series.mean`); 0 on the empty list (never taken on an
empty list in guarded positions). -/
def listMean (l : List ℚ) : ℚ :=
  l.sum / (l.length : ℚ)

/-- Source: `Series.std()` squared: pandas' default is the *sample* (ddof = 1)
standard deviation, so this divides by `n − 1`.  (Division by zero yields 0
in `ℚ`; the `n ≤ 1` cases are branched around before use.) -/
def sampleVar (l : List ℚ) : ℚ :=
  ((l.map (fun x => (x - listMean l) ^ 2)).sum) / ((l.length : ℚ) - 1)

/-- Population variance (divides by `n`) — the quantity the specification's
"population std" refers to; only used to compare against `sampleVar`. -/
def popVar (l : List ℚ) : ℚ :=
  ((l.map (fun x => (x - listMean l) ^ 2)).sum) / (l.length : ℚ)

/-- The last entry of the RSI series of `calculate_rsi` (period 14): pandas
`diff` makes position 0 `NaN`, which `delta.where(delta > 0, 0)` masks to 0;
the rolling mean at the last index needs `period` positions, so fewer than
`period` rows yield `NaN`.  `rs = gain/loss` is `NaN` when both sums are zero
(`0/0`) and `+inf` when only the loss is zero, collapsing `100 − 100/(1+rs)`
to `100`. -/
def rsiLast (vals : List ℚ) (period : ℕ) : Option ℚ :=
  let n := vals.length
  if n = 0 then some 0
  else if n < period then none
  else
    let deltas := (List.range n).map
      (fun j => if j = 0 then 0 else vals.getD j 0 - vals.getD (j - 1) 0)
    let window := deltas.drop (n - period)
    let sg := (window.map (fun d => max d 0)).sum
    let sl := (window.map (fun d => max (-d) 0)).sum
    if sl = 0 then (if sg = 0 then none else some 100)
    else some (100 - 100 / (1 + sg / sl))

/-- Source: `FactorModel.calculate_rsi`: any malformed frame (or a caught exception)
yields the raw value `0.0`; an empty close series yields `0.0`; otherwise the
last RSI value (possibly `NaN`). -/
def calculate_rsi (f : PriceFrame) (period : ℕ := 14) : Option ℚ :=
  match f with
  | .notDataFrame => some 0
  | .missingClose _ => some 0
  | .badClose _ => some 0
  | .closes vals => rsiLast vals period

/-- Source: `close.pct_change()` at position `j`: `NaN` at position 0; an undefined
(`NaN`/`±inf`) value when the previous close is 0. -/
def pctChangeAt (vals : List ℚ) (j : ℕ) : Option ℚ :=
  if j = 0 then none
  else
    let prev := vals.getD (j - 1) 0
    if prev = 0 then none else some (vals.getD j 0 / prev - 1)

/-- The last entry of `returns.rolling(period).std()`: needs `period`
non-`NaN` returns in the final window (position 0 is `NaN`, so at least
`period + 1` rows), and is the sample standard deviation of those returns —
an irrational square root in general, represented through the supplied
`sqrtQ`. -/
def volatilityLast (sqrtQ : ℚ → ℚ) (vals : List ℚ) (period : ℕ) : Option ℚ :=
  let n := vals.length
  if n = 0 then some 0
  else if n < period + 1 then none
  else
    let rets := ((List.range n).drop (n - period)).map (pctChangeAt vals)
    if rets.all Option.isSome then some (sqrtQ (sampleVar rets.reduceOption))
    else none

/-- Source: `FactorModel.calculate_volatility` (period 20). -/
def calculate_volatility (sqrtQ : ℚ → ℚ) (f : PriceFrame) (period : ℕ := 20) :
    Option ℚ :=
  match f with
  | .notDataFrame => some 0
  | .missingClose _ => some 0
  | .badClose _ => some 0
  | .closes vals => volatilityLast sqrtQ vals period

/-- The last entry of `close.pct_change(periods=period)`: `NaN` with fewer
than `period + 1` rows, else `v[n−1] / v[n−1−period] − 1` (undefined when the
divisor is 0). -/
def momentumLast (vals : List ℚ) (period : ℕ) : Option ℚ :=
  let n := vals.length
  if n = 0 then some 0
  else if n < period + 1 then none
  else
    let prev := vals.getD (n - 1 - period) 0
    if prev = 0 then none else some (vals.getD (n - 1) 0 / prev - 1)

/-- Source: `FactorModel.calculate_momentum` (period 20). -/
def calculate_momentum (f : PriceFrame) (period : ℕ := 20) : Option ℚ :=
  match f with
  | .notDataFrame => some 0
  | .missingClose _ => some 0
  | .badClose _ => some 0
  | .closes vals => momentumLast vals period

/-- The valid raw values of one factor: non-`NaN`, non-`±inf`
(`factor_model.py` lines 112–114). -/
def validVals (raws : List (Code × Option ℚ)) : List ℚ :=
  raws.filterMap Prod.snd

/-- Cross-sectional normalization of one factor (`factor_model.py` lines
96–139).  `std` stands for the (generally irrational) pandas sample standard
deviation `valid.std()`; theorems constrain it by `std ^ 2 = sampleVar valid`
and `0 ≤ std`.  The four branches mirror the source exactly:
* no valid value: every score is set to `0.0`;
* exactly one valid value: pandas' ddof-1 `std()` is `NaN`, and `NaN != 0` is
  `True` in Python, so the z-score branch divides by `NaN` — every valid
  score becomes `NaN` while invalid ones are overwritten with `−3.0`;
* `std != 0`: valid scores are z-scored with the *sample* std and invalid
  ones are overwritten with `−3.0`;
* `std == 0`: scores are mean-centred; the `−3.0` overwrite is not applied in
  this branch, so invalid entries remain `NaN`. -/
def normalizeFactor (std : ℚ) (raws : List (Code × Option ℚ)) :
    List (Code × Option ℚ) :=
  let valid := validVals raws
  if valid.length = 0 then raws.map (fun p => (p.1, some 0))
  else
    let mean := listMean valid
    if valid.length = 1 then
      raws.map (fun p => (p.1, match p.2 with | some _ => none | none => some (-3)))
    else if sampleVar valid ≠ 0 then
      raws.map (fun p =>
        (p.1, match p.2 with | some x => some ((x - mean) / std) | none => some (-3)))
    else
      raws.map (fun p =>
        (p.1, match p.2 with | some x => some (x - mean) | none => none))

/-! ## Performance reporting -/

/-- Source: `total_return = portfolio_value[-1] / portfolio_value[0] − 1`
(`test/backtest.py` line 334; identical in the other variant). -/
def totalReturn (values : List ℚ) : ℚ :=
  values.getLastD 0 / values.headD 0 - 1

/-- The annualized return of the report variant under
`Simple multi-factor stock selection model/backtest.py` (line 169):
`(1 + returns.mean()) ** 252 − 1` — compounding of the mean daily return, not
the geometric total-return formula of the `test` variant. -/
def annualReturnMean (returns : List ℚ) : ℚ :=
  (1 + listMean returns) ^ (252 : ℕ) - 1

/-- The most recent prior buy matched to a sell (`test/backtest.py` lines
359–364): all earlier-dated buy trades of the same code, last one in ledger
order. -/
def matchedBuy (trades : List Trade) (t : Trade) : Option Trade :=
  (trades.filter
    (fun b => b.code == t.code && decide (b.side = Side.buy) && decide (b.date < t.date))).getLast?

/-- The sell trades of a ledger. -/
def sellTrades (trades : List Trade) : List Trade :=
  trades.filter (fun t => decide (t.side = Side.sell))

/-- Whether a sell counts as a win: it has a matched prior buy and
`(sell_price − matched_buy_price) × sold_shares > 0`.  An unmatched sell is
never a win. -/
def isWinB (trades : List Trade) (t : Trade) : Bool :=
  match matchedBuy trades t with
  | some b => decide ((t.price - b.price) * (t.shares : ℚ) > 0)
  | none => false

/-- Source: `win_rate = win_trades / total_trades` over the sell trades, 0 when there
are none (`test/backtest.py` lines 352–369). -/
def winRate (trades : List Trade) : ℚ :=
  let total := (sellTrades trades).length
  let wins := ((sellTrades trades).filter (isWinB trades)).length
  if 0 < total then (wins : ℚ) / (total : ℚ) else 0

/-! ## Claim C5: round-trip win rate -/

/-- An early buy of X, later repriced: if the matcher used this (first) buy,
the example sell below would be a loss. -/
def buyX1 : Trade := ⟨0, "X", .buy, 20, 100, 2000, 5⟩

/-- The most recent prior buy of X before the sell; matching this one makes
the sell a win. -/
def buyX2 : Trade := ⟨1, "X", .buy, 12, 100, 1200, 5⟩

/-- A winning sell of X (profit `(15 − 12) × 100 > 0` against `buyX2`). -/
def sellX : Trade := ⟨2, "X", .sell, 15, 100, 1495, 5⟩

/-- A sell of Y with no prior buy of Y anywhere in the ledger. -/
def sellY : Trade := ⟨2, "Y", .sell, 5, 100, 495, 5⟩

/-- The specification's win-rate scenario: two sells, one win, one unmatched. -/
def exLedgerC5 : List Trade := [buyX1, buyX2, sellX, sellY]

/-- C5: the win rate matches each sell against the most recent prior buy of
the same instrument (`buyX2`, not `buyX1`), counts a win iff
`(sell_price − matched_buy_price) × shares > 0`, divides wins by the number of
sell trades, is 0 when no sells occurred, and an unmatched sell counts in the
denominator but never the numerator: the two-sell example with one win and one
unmatched sell yields `1/2`. -/
theorem winRate_most_recent_prior_buy :
    (∀ trades : List Trade, (sellTrades trades).length = 0 → winRate trades = 0) ∧
    matchedBuy exLedgerC5 sellX = some buyX2 ∧
    matchedBuy exLedgerC5 sellY = none ∧
    isWinB exLedgerC5 sellX = true ∧
    isWinB exLedgerC5 sellY = false ∧
    (sellTrades exLedgerC5).length = 2 ∧
    winRate exLedgerC5 = 1 / 2 := by
  have hmX : matchedBuy exLedgerC5 sellX = some buyX2 := by decide
  have hmY : matchedBuy exLedgerC5 sellY = none := by decide
  have hwX : isWinB exLedgerC5 sellX = true := by
    simp only [isWinB, hmX]
    norm_num [buyX2, sellX]
  have hwY : isWinB exLedgerC5 sellY = false := by
    simp only [isWinB, hmY]
  have hsells : sellTrades exLedgerC5 = [sellX, sellY] := by decide
  refine ⟨fun ts h => by simp [winRate, h], hmX, hmY, hwX, hwY, ?_, ?_⟩
  · rw [hsells]
    rfl
  · simp only [winRate, hsells, List.filter_cons, hwX, hwY]
    norm_num

/-- Witness for C5: the zero-sell clause applied at the empty ledger, plus the
concrete scenario. -/
theorem winRate_most_recent_prior_buy_witness :
    winRate ([] : List Trade) = 0 ∧ winRate exLedgerC5 = 1 / 2 :=
  ⟨winRate_most_recent_prior_buy.1 [] (by simp [sellTrades]),
   winRate_most_recent_prior_buy.2.2.2.2.2.2⟩

/-! ## Claim C10: degenerate frames yield raw value 0.0, a valid observation -/

/-- C10: when the price frame is not a DataFrame, lacks the close column,
raises during the indicator computation, or is empty, each of
`calculate_rsi`, `calculate_volatility` and `calculate_momentum` returns the
raw value `0.0` (not an undefined value); and a raw value `0.0` is a *valid*
observation for cross-sectional normalization: it is a member of the valid
subset (so it contributes to the mean and the std) and it receives the
z-score `(0 − mean) / std`, not the `−3.0` penalty path. -/
theorem factor_fallback_zero_is_valid (r : ℕ) (sqrtQ : ℚ → ℚ) :
    calculate_rsi .notDataFrame = some 0 ∧
    calculate_rsi (.missingClose r) = some 0 ∧
    calculate_rsi (.badClose r) = some 0 ∧
    calculate_rsi (.closes []) = some 0 ∧
    calculate_volatility sqrtQ .notDataFrame = some 0 ∧
    calculate_volatility sqrtQ (.missingClose r) = some 0 ∧
    calculate_volatility sqrtQ (.badClose r) = some 0 ∧
    calculate_volatility sqrtQ (.closes []) = some 0 ∧
    calculate_momentum .notDataFrame = some 0 ∧
    calculate_momentum (.missingClose r) = some 0 ∧
    calculate_momentum (.badClose r) = some 0 ∧
    calculate_momentum (.closes []) = some 0 ∧
    ∀ (std : ℚ) (raws : List (Code × Option ℚ)) (c : Code),
      (c, some 0) ∈ raws → 2 ≤ (validVals raws).length →
      sampleVar (validVals raws) ≠ 0 →
      (0 : ℚ) ∈ validVals raws ∧
      (c, some ((0 - listMean (validVals raws)) / std)) ∈ normalizeFactor std raws := by
  refine ⟨rfl, rfl, rfl, rfl, rfl, rfl, rfl, rfl, rfl, rfl, rfl, rfl, ?_⟩
  intro std raws c hmem h2 hvar
  have h0 : (0 : ℚ) ∈ validVals raws := List.mem_filterMap.2 ⟨(c, some 0), hmem, rfl⟩
  refine ⟨h0, ?_⟩
  have hne0 : ¬ (validVals raws).length = 0 := by omega
  have hne1 : ¬ (validVals raws).length = 1 := by omega
  simp only [normalizeFactor]
  rw [if_neg hne0, if_neg hne1, if_pos hvar]
  exact List.mem_map_of_mem _ hmem

/-- Witness for C10: a concrete two-instrument cross-section where the 0.0
raw value enters the valid subset and is z-scored. -/
theorem factor_fallback_zero_is_valid_witness :
    (0 : ℚ) ∈ validVals [("A", some 0), ("B", some 2)] ∧
    ("A", some ((0 - listMean (validVals [("A", some 0), ("B", some 2)])) / 1)) ∈
      normalizeFactor 1 [("A", some 0), ("B", some 2)] :=
  (factor_fallback_zero_is_valid 0 id).2.2.2.2.2.2.2.2.2.2.2.2
    1 [("A", some 0), ("B", some 2)] "A" (by decide) (by decide)
    (by norm_num [sampleVar, validVals, listMean, List.filterMap])

/-! ## Claim C4: cross-sectional normalization -/

/-- The raw cross-section used to separate the sample std from the population
std: valid values 0, 2, 4 (sample variance 4, population variance 8/3) and
one undefined instrument D. -/
def exRawsC4 : List (Code × Option ℚ) := [("A", some 0), ("B", some 2), ("C", some 4), ("D", none)]

/-- Counterexample to C4 as stated: the code z-scores with the pandas
*sample* (ddof = 1) standard deviation, not the population standard
deviation.  On valid values `[0, 2, 4]` the sample variance is `4` (std `2`),
so instrument C gets the score `(4 − 2)/2 = 1`; the population variance is
`8/3`, and no real `s` with `s² = 8/3` satisfies `(4 − 2)/s = 1` — so the
claimed population z-score differs from the computed one. -/
theorem normalization_population_std_counterexample :
    validVals exRawsC4 = [0, 2, 4] ∧
    (2 : ℚ) ^ 2 = sampleVar (validVals exRawsC4) ∧
    normalizeFactor 2 exRawsC4 =
      [("A", some (-1)), ("B", some 0), ("C", some 1), ("D", some (-3))] ∧
    popVar (validVals exRawsC4) = 8 / 3 ∧
    (∀ s : ℝ, s ^ 2 = (8 : ℝ) / 3 → (4 - 2 : ℝ) / s ≠ 1) := by
  refine ⟨by decide, ?_, ?_, ?_, ?_⟩
  · norm_num [sampleVar, validVals, exRawsC4, listMean, List.filterMap]
  · norm_num [normalizeFactor, validVals, exRawsC4, sampleVar, listMean,
      List.filterMap]
  · norm_num [popVar, validVals, exRawsC4, listMean, List.filterMap]
  · intro s hs h1
    have hsne : s ≠ 0 := by
      intro h
      rw [h] at h1
      norm_num at h1
    have : s = 2 := by
      field_simp at h1
      linarith
    rw [this] at hs
    norm_num at hs

/-- C4 (amended): per factor and rebalance date the code computes the mean
and the pandas *sample* (ddof = 1) standard deviation over the valid
(non-null, non-infinite) raw values — the sample variance carries the
`n − 1` divisor, against the population variance's `n` — and:
* with at least two valid values and nonzero variance, every valid raw value
  is z-scored as `(x − mean)/std` and every invalid one receives `−3.0`
  (no instrument is excluded);
* with at least two valid values and zero variance, valid scores are
  mean-centred but unscaled, and invalid ones are left undefined (`NaN`), not
  penalized;
* with no valid value at all, every instrument's score is set to `0.0`, not
  `−3.0`;
* with exactly one valid value, pandas' ddof-1 std is `NaN`, every valid
  score becomes undefined and every invalid one receives `−3.0`. -/
theorem normalization_branches (std : ℚ) (raws : List (Code × Option ℚ))
    (hstd : std ^ 2 = sampleVar (validVals raws)) :
    sampleVar (validVals raws) * (((validVals raws).length : ℚ) - 1) =
      popVar (validVals raws) * ((validVals raws).length : ℚ) ∧
    (2 ≤ (validVals raws).length → sampleVar (validVals raws) ≠ 0 →
      (∀ c x, (c, some x) ∈ raws →
        (c, some ((x - listMean (validVals raws)) / std)) ∈ normalizeFactor std raws) ∧
      (∀ c, (c, none) ∈ raws → (c, some (-3)) ∈ normalizeFactor std raws)) ∧
    (2 ≤ (validVals raws).length → sampleVar (validVals raws) = 0 →
      (∀ c x, (c, some x) ∈ raws →
        (c, some (x - listMean (validVals raws))) ∈ normalizeFactor std raws) ∧
      (∀ c, (c, none) ∈ raws → (c, none) ∈ normalizeFactor std raws)) ∧
    ((validVals raws).length = 0 →
      ∀ c v, (c, v) ∈ raws → (c, some 0) ∈ normalizeFactor std raws) ∧
    ((validVals raws).length = 1 →
      (∀ c x, (c, some x) ∈ raws → (c, none) ∈ normalizeFactor std raws) ∧
      (∀ c, (c, none) ∈ raws → (c, some (-3)) ∈ normalizeFactor std raws)) := by
  refine ⟨?_, ?_, ?_, ?_, ?_⟩
  · -- the ddof-1 relation between the two variances
    by_cases h0 : (validVals raws).length = 0
    · have hnil : validVals raws = [] := List.length_eq_zero.1 h0
      rw [hnil]
      simp [sampleVar, popVar]
    by_cases h1 : (validVals raws).length = 1
    · obtain ⟨x, hx⟩ := List.length_eq_one.1 h1
      rw [hx]
      simp [sampleVar, popVar, listMean]
    · have hn0 : ((validVals raws).length : ℚ) ≠ 0 := by
        exact_mod_cast h0
      have hn1 : ((validVals raws).length : ℚ) - 1 ≠ 0 := by
        intro h
        exact h1 (by exact_mod_cast sub_eq_zero.1 h)
      rw [sampleVar, popVar, div_mul_cancel₀ _ hn1, div_mul_cancel₀ _ hn0]
  · intro h2 hvar
    have hne0 : ¬ (validVals raws).length = 0 := by omega
    have hne1 : ¬ (validVals raws).length = 1 := by omega
    constructor
    · intro c x hmem
      simp only [normalizeFactor]
      rw [if_neg hne0, if_neg hne1, if_pos hvar]
      exact List.mem_map_of_mem _ hmem
    · intro c hmem
      simp only [normalizeFactor]
      rw [if_neg hne0, if_neg hne1, if_pos hvar]
      exact List.mem_map_of_mem _ hmem
  · intro h2 hvar
    have hne0 : ¬ (validVals raws).length = 0 := by omega
    have hne1 : ¬ (validVals raws).length = 1 := by omega
    have hvar' : ¬ sampleVar (validVals raws) ≠ 0 := by
      simpa using hvar
    constructor
    · intro c x hmem
      simp only [normalizeFactor]
      rw [if_neg hne0, if_neg hne1, if_neg hvar']
      exact List.mem_map_of_mem _ hmem
    · intro c hmem
      simp only [normalizeFactor]
      rw [if_neg hne0, if_neg hne1, if_neg hvar']
      exact List.mem_map_of_mem _ hmem
  · intro h0 c v hmem
    simp only [normalizeFactor]
    rw [if_pos h0]
    exact List.mem_map_of_mem _ hmem
  · intro h1
    have hne0 : ¬ (validVals raws).length = 0 := by omega
    constructor
    · intro c x hmem
      simp only [normalizeFactor]
      rw [if_neg hne0, if_pos h1]
      exact List.mem_map_of_mem _ hmem
    · intro c hmem
      simp only [normalizeFactor]
      rw [if_neg hne0, if_pos h1]
      exact List.mem_map_of_mem _ hmem

/-- Witness for C4: the amended theorem applied to the concrete cross-section
`exRawsC4` with the exactly-representable sample std 2. -/
theorem normalization_branches_witness :
    ("C", some (((4 : ℚ) - listMean (validVals exRawsC4)) / 2)) ∈ normalizeFactor 2 exRawsC4 ∧
    ("D", some ((-3 : ℚ))) ∈ normalizeFactor 2 exRawsC4 := by
  have h := normalization_branches 2 exRawsC4
    (by norm_num [sampleVar, validVals, exRawsC4, listMean, List.filterMap])
  have hb := h.2.1 (by decide)
    (by norm_num [sampleVar, validVals, exRawsC4, listMean, List.filterMap])
  exact ⟨hb.1 "C" 4 (by decide), hb.2 "D" (by decide)⟩

/-! ## Claim C6: annualized-return formula across report variants -/

/-- A two-day value series with zero total return (up 100%, then down 50%). -/
def valuesC6 : List ℚ := [50000, 100000, 50000]

/-- The daily returns generating `valuesC6`. -/
def returnsC6 : List ℚ := [1, -1/2]

/-- Counterexample to C6 as stated: the geometric total-return formula is not
canonical for every report variant.  Over `valuesC6` the total return is 0, so
the geometric formula `(1+total)^(252/N) − 1` gives exactly 0 for `N = 2`
elapsed days (third conjunct: 0 is the unique admissible solution of the
defining power equation); but the variant under
`Simple multi-factor stock selection model/backtest.py` reports
`(1 + mean(returns))^252 − 1 = (5/4)^252 − 1 ≠ 0`. -/
theorem annualized_return_not_canonical :
    totalReturn valuesC6 = 0 ∧
    annualReturnMean returnsC6 ≠ 0 ∧
    (∀ a : ℝ, -1 < a →
      (1 + a) ^ (2 : ℕ) = (1 + (totalReturn valuesC6 : ℝ)) ^ (252 : ℕ) → a = 0) := by
  have htot : totalReturn valuesC6 = 0 := by
    norm_num [totalReturn, valuesC6]
  have hmean : listMean returnsC6 = 1 / 4 := by
    norm_num [listMean, returnsC6]
  refine ⟨htot, ?_, ?_⟩
  · rw [annualReturnMean, hmean]
    have h1 : (1 : ℚ) < 1 + 1 / 4 := by norm_num
    have h252 : (1 : ℚ) < (1 + 1 / 4) ^ (252 : ℕ) := one_lt_pow₀ h1 (by norm_num)
    exact sub_ne_zero.2 h252.ne'
  · intro a ha h
    rw [htot] at h
    norm_num at h
    rcases h with h | h
    · exact h
    · exfalso
      linarith

/-- C6 (amended): the two report variants do not share one canonical
annualized-return formula.  The `test` variant computes the geometric
`(1 + total_return)^(252/N) − 1`; the variant under
`Simple multi-factor stock selection model` computes
`(1 + mean(daily_returns))^252 − 1`, which tracks the mean daily return: it is
strictly positive whenever the mean daily return is, even when the total
return is exactly 0 (as on `valuesC6`/`returnsC6`), where the geometric
formula yields 0. -/
theorem annual_return_variants_disagree :
    totalReturn valuesC6 = 0 ∧
    0 < annualReturnMean returnsC6 ∧
    (∀ rs : List ℚ, 0 < listMean rs → 0 < annualReturnMean rs) := by
  have hgen : ∀ rs : List ℚ, 0 < listMean rs → 0 < annualReturnMean rs := by
    intro rs hm
    rw [annualReturnMean, sub_pos]
    exact one_lt_pow₀ (by linarith) (by norm_num)
  refine ⟨by norm_num [totalReturn, valuesC6], ?_, hgen⟩
  exact hgen returnsC6 (by norm_num [listMean, returnsC6])

/-- Witness for C6's amended theorem: the general positivity clause applied to
the concrete return series. -/
theorem annual_return_variants_disagree_witness :
    0 < listMean [(1 : ℚ)] ∧ 0 < annualReturnMean [(1 : ℚ)] :=
  ⟨by norm_num [listMean], annual_return_variants_disagree.2.2 [1] (by norm_num [listMean])⟩

/-! ## Claim C3: daily valuation, carry-forward, and the data-integrity abort -/

/-- The close used to value a position on a given day: today's close if the
instrument is quoted today, else the most recent strictly-prior close, else
nothing (a fatal data error). -/
def usableClose (s : PriceSeries) (d : Date) : Option ℚ :=
  if hasDate s d then some (closeAt s d) else priorClose s d

/-- Reduction of the `Except` monad's bind on a success value. -/
theorem exceptOkBind {ε α β : Type} (x : α) (f : α → Except ε β) :
    (Except.ok x >>= f) = f x := rfl

/-- Reduction of the `Except` monad's `pure`. -/
theorem exceptPureEq {ε α : Type} (x : α) : (pure x : Except ε α) = .ok x := rfl

/-- Reduction of the `Except` monad's bind on an error value. -/
theorem exceptErrorBind {ε α β : Type} (e : ε) (f : α → Except ε β) :
    (Except.error e >>= f) = Except.error e := rfl

/-- The per-position valuation fold, characterized: the accumulated value is
the initial accumulator plus every position's shares times its usable close,
and the fold aborts with `IndexError` as soon as a position has no usable
close. -/
theorem dailyValue_fold_spec (sd : StockData) (date : Date) :
    ∀ (ps : List (Code × ℕ)) (acc : ℚ),
      (ps.foldlM
        (fun acc p =>
          let s := lookupSeries sd p.1
          if hasDate s date then
            Except.ok (acc + (p.2 : ℚ) * closeAt s date)
          else
            match priorClose s date with
            | some c => Except.ok (acc + (p.2 : ℚ) * c)
            | none => Except.error PyErr.indexError)
        acc : Except PyErr ℚ) =
      if ps.all (fun p => (usableClose (lookupSeries sd p.1) date).isSome) then
        .ok (acc + ((ps.map
          (fun p => (p.2 : ℚ) * (usableClose (lookupSeries sd p.1) date).getD 0)).sum))
      else .error .indexError := by
  intro ps
  induction ps with
  | nil => intro acc; simp [exceptPureEq]
  | cons p ps ih =>
    intro acc
    simp only [List.foldlM_cons, List.all_cons, List.map_cons, List.sum_cons]
    by_cases hq : hasDate (lookupSeries sd p.1) date
    · rw [if_pos hq]
      have hu : usableClose (lookupSeries sd p.1) date = some (closeAt (lookupSeries sd p.1) date) := by
        rw [usableClose, if_pos hq]
      simp only [exceptOkBind, hu, Option.isSome_some, Bool.true_and, Option.getD_some]
      rw [ih]
      by_cases hall : ps.all (fun p => (usableClose (lookupSeries sd p.1) date).isSome)
      · rw [if_pos hall, if_pos hall]
        rw [add_assoc]
      · rw [if_neg hall, if_neg hall]
    · rw [if_neg hq]
      have hu : usableClose (lookupSeries sd p.1) date = priorClose (lookupSeries sd p.1) date := by
        rw [usableClose, if_neg hq]
      cases hprior : priorClose (lookupSeries sd p.1) date with
      | none =>
        simp [hu, hprior, exceptErrorBind]
      | some c =>
        simp only [hu, hprior, Option.isSome_some, Bool.true_and, Option.getD_some,
          exceptOkBind]
        rw [ih]
        by_cases hall : ps.all (fun p => (usableClose (lookupSeries sd p.1) date).isSome)
        · rw [if_pos hall, if_pos hall]
          rw [add_assoc]
        · rw [if_neg hall, if_neg hall]

/-- C3 (amended): every day's recorded total value is cash plus, for each
held position, shares times today's close or, failing that, the most recent
prior close; a held position with no usable close at all aborts the
computation with an `IndexError` (never a silent zero) — but the raised error
is the bare positional `IndexError`, which does not itself carry the
offending instrument and date. -/
theorem daily_valuation_spec (sd : StockData) (date : Date) (st : BTState) :
    dailyValue sd date st =
      if st.positions.all (fun p => (usableClose (lookupSeries sd p.1) date).isSome) then
        .ok (st.cash + ((st.positions.map
          (fun p => (p.2 : ℚ) * (usableClose (lookupSeries sd p.1) date).getD 0)).sum))
      else .error .indexError := by
  rw [dailyValue]
  exact dailyValue_fold_spec sd date st.positions st.cash

/-- Counterexample to C3 as stated: two runs whose aborts have *different*
offending instruments and dates ("A" on day 3, "B" on day 7) surface the
*same* error value, so the surfaced error cannot carry the offending
instrument and date. -/
theorem valuation_abort_carries_no_context :
    dailyValue [("A", [(5, 10)])] 3 ⟨0, [("A", 100)], []⟩ = .error .indexError ∧
    dailyValue [("B", [(9, 2)])] 7 ⟨0, [("B", 50)], []⟩ = .error .indexError ∧
    dailyValue [("A", [(5, 10)])] 3 ⟨0, [("A", 100)], []⟩ =
      dailyValue [("B", [(9, 2)])] 7 ⟨0, [("B", 50)], []⟩ ∧
    ¬ ∃ f : PyErr → Code × Date, f .indexError = ("A", 3) ∧ f .indexError = ("B", 7) := by
  refine ⟨rfl, rfl, rfl, ?_⟩
  rintro ⟨f, h1, h2⟩
  rw [h1] at h2
  simp at h2

/-! ## Claim C7: deterministic tie-break by first-seen order -/

/-- Strict occurrence order: `x` occurs in the list strictly before an
occurrence of `y`. -/
def before (x y : Code × ℚ) : List (Code × ℚ) → Prop
  | [] => False
  | h :: t => (h = x ∧ y ∈ t) ∨ before x y t

theorem before_mem {x y : Code × ℚ} :
    ∀ {l : List (Code × ℚ)}, before x y l → x ∈ l ∧ y ∈ l := by
  intro l
  induction l with
  | nil => intro h; exact absurd h id
  | cons hd t ih =>
    intro h
    rcases h with ⟨rfl, hy⟩ | h
    · exact ⟨List.mem_cons_self _ _, List.mem_cons_of_mem _ hy⟩
    · obtain ⟨hx, hy⟩ := ih h
      exact ⟨List.mem_cons_of_mem _ hx, List.mem_cons_of_mem _ hy⟩

theorem mem_insertDesc {y x : Code × ℚ} :
    ∀ {l : List (Code × ℚ)}, y ∈ insertDesc x l ↔ y = x ∨ y ∈ l := by
  intro l
  induction l with
  | nil => simp [insertDesc]
  | cons hd t ih =>
    rw [insertDesc]
    by_cases hc : x.2 < hd.2
    · rw [if_pos hc]
      simp only [List.mem_cons, ih]
      tauto
    · rw [if_neg hc]
      simp only [List.mem_cons]

/-- Inserting an unrelated element preserves the occurrence order of a pair. -/
theorem before_insertDesc_other {x y z : Code × ℚ} :
    ∀ {l : List (Code × ℚ)}, before x y l → before x y (insertDesc z l) := by
  intro l
  induction l with
  | nil => intro h; exact absurd h id
  | cons hd t ih =>
    intro h
    rw [insertDesc]
    by_cases hc : z.2 < hd.2
    · rw [if_pos hc]
      rcases h with ⟨rfl, hy⟩ | h
      · exact Or.inl ⟨rfl, mem_insertDesc.2 (Or.inr hy)⟩
      · exact Or.inr (ih h)
    · rw [if_neg hc]
      exact Or.inr h

/-- An element whose score does not exceed `x`'s ends up after `x` when `x`
is inserted. -/
theorem before_insertDesc_self {x y : Code × ℚ} (hscore : y.2 ≤ x.2) :
    ∀ {l : List (Code × ℚ)}, y ∈ l → before x y (insertDesc x l) := by
  intro l
  induction l with
  | nil => intro h; exact absurd h (List.not_mem_nil y)
  | cons hd t ih =>
    intro hy
    rw [insertDesc]
    by_cases hc : x.2 < hd.2
    · rw [if_pos hc]
      rcases List.mem_cons.1 hy with rfl | hyt
      · exact absurd (lt_of_le_of_lt hscore hc) (lt_irrefl _)
      · exact Or.inr (ih hyt)
    · rw [if_neg hc]
      exact Or.inl ⟨rfl, hy⟩

theorem insertDesc_perm (x : Code × ℚ) :
    ∀ (l : List (Code × ℚ)), (insertDesc x l).Perm (x :: l) := by
  intro l
  induction l with
  | nil => simp [insertDesc]
  | cons hd t ih =>
    rw [insertDesc]
    by_cases hc : x.2 < hd.2
    · rw [if_pos hc]
      exact (ih.cons hd).trans (List.Perm.swap x hd t)
    · rw [if_neg hc]

theorem sortDesc_perm (l : List (Code × ℚ)) : (sortDesc l).Perm l := by
  induction l with
  | nil => simp [sortDesc]
  | cons hd t ih =>
    have : sortDesc (hd :: t) = insertDesc hd (sortDesc t) := rfl
    rw [this]
    exact (insertDesc_perm hd (sortDesc t)).trans (ih.cons hd)

/-- The stable sort keeps an earlier equal-or-lower-scored element ahead. -/
theorem before_sortDesc {x y : Code × ℚ} (hscore : y.2 ≤ x.2) :
    ∀ {l : List (Code × ℚ)}, before x y l → before x y (sortDesc l) := by
  intro l
  induction l with
  | nil => intro h; exact absurd h id
  | cons hd t ih =>
    intro h
    have hs : sortDesc (hd :: t) = insertDesc hd (sortDesc t) := rfl
    rw [hs]
    rcases h with ⟨rfl, hy⟩ | h
    · have hy' : y ∈ sortDesc t := ((sortDesc_perm t).mem_iff).2 hy
      exact before_insertDesc_self hscore hy'
    · exact before_insertDesc_other (ih h)

/-- In a duplicate-free list, whenever the later element of an ordered pair
is inside the `k`-prefix, so is the earlier one. -/
theorem before_take {x y : Code × ℚ} :
    ∀ {l : List (Code × ℚ)} {k : ℕ}, l.Nodup → before x y l →
      y ∈ l.take k → x ∈ l.take k := by
  intro l
  induction l with
  | nil => intro k _ h; exact absurd h id
  | cons hd t ih =>
    intro k hnd h hy
    cases k with
    | zero => exact absurd hy (List.not_mem_nil y)
    | succ k =>
      rcases h with ⟨rfl, hyt⟩ | h
      · exact List.mem_cons_self _ _
      · rw [List.take_succ_cons] at hy ⊢
        rcases List.mem_cons.1 hy with rfl | hy'
        · exact absurd (before_mem h).2 (List.nodup_cons.1 hnd).1
        · exact List.mem_cons_of_mem _ (ih (List.nodup_cons.1 hnd).2 h hy')

/-- With duplicate-free codes, a code determines its scored pair. -/
theorem score_unique {b : Code} {s s' : ℚ} :
    ∀ {l : List (Code × ℚ)}, (l.map Prod.fst).Nodup →
      (b, s) ∈ l → (b, s') ∈ l → s = s' := by
  intro l
  induction l with
  | nil => intro _ h; exact absurd h (List.not_mem_nil _)
  | cons hd t ih =>
    intro hnd h h'
    rw [List.map_cons, List.nodup_cons] at hnd
    have hbt : ∀ q : ℚ, (b, q) ∈ t → b ∈ List.map Prod.fst t :=
      fun q hm => List.mem_map.2 ⟨(b, q), hm, rfl⟩
    rcases List.mem_cons.1 h with he | hmem
    · rcases List.mem_cons.1 h' with he' | hmem'
      · exact congrArg Prod.snd (he.trans he'.symm)
      · exfalso
        apply hnd.1
        rw [← he]
        exact hbt s' hmem'
    · rcases List.mem_cons.1 h' with he' | hmem'
      · exfalso
        apply hnd.1
        rw [← he']
        exact hbt s hmem
      · exact ih hnd.2 hmem hmem'

/-- C7: when two instruments have exactly equal composite scores, the
selection is stable by first-seen order of the score mapping: the
earlier-listed instrument stays ahead of the later one in the sorted ranking,
and whenever the later one makes the top-`k` cut, so does the earlier one.
(The selector is a pure function of the score list, so the choice is
identical across repeated runs by construction.) -/
theorem selector_tie_break_stable
    (scores : List (Code × ℚ)) (k : ℕ) (a b : Code) (s : ℚ)
    (hnd : (scores.map Prod.fst).Nodup)
    (hb : before (a, s) (b, s) scores) :
    before (a, s) (b, s) (sortDesc scores) ∧
    (b ∈ (selectTop scores k).map Prod.fst → a ∈ (selectTop scores k).map Prod.fst) := by
  have hsortb : before (a, s) (b, s) (sortDesc scores) :=
    before_sortDesc (le_refl s) hb
  refine ⟨hsortb, ?_⟩
  intro hbmem
  obtain ⟨p, hpmem, hpfst⟩ := List.mem_map.1 hbmem
  obtain ⟨bc, sb⟩ := p
  subst hpfst
  have hpairs : (sortDesc scores).Nodup :=
    ((sortDesc_perm scores).nodup_iff).2 (List.Nodup.of_map Prod.fst hnd)
  have hbpair_scores : (bc, sb) ∈ scores :=
    ((sortDesc_perm scores).mem_iff).1 (List.take_subset k _ hpmem)
  have hbs_scores : (bc, s) ∈ scores := (before_mem hb).2
  have hsame : sb = s := score_unique hnd hbpair_scores hbs_scores
  subst hsame
  have hatake : (a, sb) ∈ (sortDesc scores).take k :=
    before_take hpairs hsortb hpmem
  exact List.mem_map_of_mem Prod.fst hatake

/-- Witness for C7: two equal-scored instruments in universe order A, B; with
`k = 2` both are selected, and the earlier one is indeed picked. -/
theorem selector_tie_break_stable_witness :
    "A" ∈ (selectTop [("A", (1 : ℚ)), ("B", 1)] 2).map Prod.fst :=
  (selector_tie_break_stable [("A", (1 : ℚ)), ("B", 1)] 2 "A" "B" 1
    (by decide) (Or.inl ⟨rfl, by simp⟩)).2 (by decide)

/-! ## Claim C9: a rebalance that reselects the current holdings is a no-op -/

/-- C9: on a rebalance day whose selection equals (as a set) the currently
held instruments, the simulator executes no trades: the rebalance branch
returns the state unchanged (same cash, positions and ledger), and the whole
day step only performs the daily valuation, appending the day's value and
return. -/
theorem rebalance_noop_when_holdings_match
    (sd : StockData) (f : ScoreFn) (topN : ℕ) (date : Date) (st : BTState)
    (hne : st.positions.isEmpty = false)
    (hsame : sameSetB (st.positions.map Prod.fst)
      ((selectTop (f (availableStocks sd date)) topN).map Prod.fst) = true) :
    rebalanceStep sd f topN date st = .ok st ∧
    (∀ (rs : RunState) (i period : ℕ), rs.bt = st → i % period = 0 →
      dayStep sd (some f) period topN rs i date =
        (dailyValue sd date st).map (fun v =>
          ⟨st, rs.portfolioValue ++ [v],
           rs.returns ++ [if 0 < i then
               (if 0 < rs.portfolioValue.getLastD 0 then
                 v / rs.portfolioValue.getLastD 0 - 1 else 0)
             else 0]⟩)) := by
  have hreb : rebalanceStep sd f topN date st = .ok st := by
    rw [rebalanceStep]
    by_cases hav : (availableStocks sd date).isEmpty
    · rw [if_pos hav]
    · rw [if_neg hav, if_neg (by rw [hne]; exact Bool.false_ne_true), if_pos hsame]
  refine ⟨hreb, ?_⟩
  intro rs i period hbt hmod
  rw [dayStep, hbt, if_pos hmod, hreb, exceptOkBind]
  cases hv : dailyValue sd date st with
  | ok v => simp only [hv]; rfl
  | error e => simp only [hv]; rfl

/-- Concrete data for the C9 witness: one instrument, held and reselected. -/
def sdC9 : StockData := [("A", [(0, 10)])]

/-- Constant scoring that always reselects A. -/
def scoreC9 : ScoreFn := fun _ => [("A", 1)]

/-- The held state for the C9 witness. -/
def stC9 : BTState := ⟨100, [("A", 100)], []⟩

/-- Witness for C9: with holdings exactly equal to the selection, the day
step leaves the portfolio untouched and only records the valuation. -/
theorem rebalance_noop_when_holdings_match_witness :
    rebalanceStep sdC9 scoreC9 1 0 stC9 = .ok stC9 ∧
    dayStep sdC9 (some scoreC9) 1 1 ⟨stC9, [50000], []⟩ 0 0 =
      (dailyValue sdC9 0 stC9).map (fun v => ⟨stC9, [50000] ++ [v], [] ++ [if 0 < 0 then
          (if 0 < ([(50000 : ℚ)]).getLastD 0 then v / ([(50000 : ℚ)]).getLastD 0 - 1 else 0)
        else 0]⟩) := by
  have h := rebalance_noop_when_holdings_match sdC9 scoreC9 1 0 stC9 (by decide)
    (by decide)
  exact ⟨h.1, h.2 ⟨stC9, [50000], []⟩ 0 1 rfl rfl⟩

/-! ## Claim C2: buy sizing, skipping, and exact cash debit -/

/-- C2: a buy of a quoted instrument uses price `close × (1 + slippage)`,
commission `max(buy_rate × intended_notional, min_commission)` charged on the
allocated capital, and sizes
`shares = floor((alloc − commission)/price/lot) × lot` with lot 100; when that
is not positive the buy is skipped with the state (in particular the cash)
unchanged and no error; otherwise cash is debited by exactly
`shares × price + commission`, the position is recorded, and a buy trade is
appended. -/
theorem buy_sizing_spec (sd : StockData) (date : Date) (alloc : ℚ)
    (st : BTState) (c : Code)
    (hq : hasDate (lookupSeries sd c) date = true) :
    (⌊(alloc - calculate_commission alloc true) /
        apply_slippage (closeAt (lookupSeries sd c) date) true / 100⌋ ≤ 0 →
      buyStep sd date alloc st c = st) ∧
    (0 < ⌊(alloc - calculate_commission alloc true) /
        apply_slippage (closeAt (lookupSeries sd c) date) true / 100⌋ →
      buyStep sd date alloc st c =
        { cash := st.cash -
            (((⌊(alloc - calculate_commission alloc true) /
                apply_slippage (closeAt (lookupSeries sd c) date) true / 100⌋ * 100 : ℤ) : ℚ) *
              apply_slippage (closeAt (lookupSeries sd c) date) true +
              calculate_commission alloc true)
          positions := st.positions ++
            [(c, (⌊(alloc - calculate_commission alloc true) /
                apply_slippage (closeAt (lookupSeries sd c) date) true / 100⌋ * 100).toNat)]
          trades := st.trades ++
            [⟨date, c, .buy, apply_slippage (closeAt (lookupSeries sd c) date) true,
              (⌊(alloc - calculate_commission alloc true) /
                apply_slippage (closeAt (lookupSeries sd c) date) true / 100⌋ * 100).toNat,
              ((⌊(alloc - calculate_commission alloc true) /
                apply_slippage (closeAt (lookupSeries sd c) date) true / 100⌋ * 100 : ℤ) : ℚ) *
                apply_slippage (closeAt (lookupSeries sd c) date) true,
              calculate_commission alloc true⟩] }) := by
  set x : ℚ := (alloc - calculate_commission alloc true) /
    apply_slippage (closeAt (lookupSeries sd c) date) true / 100 with hx
  constructor
  · intro hle
    rw [buyStep, if_pos hq]
    simp only
    rw [if_neg]
    rw [not_lt]
    have hpy : pyInt x ≤ 0 := by
      rw [pyInt]
      by_cases hneg : x < 0
      · rw [if_pos hneg]
        simp only [neg_nonpos]
        exact Int.le_floor.2 (by push_cast; linarith)
      · rw [if_neg hneg]
        exact hle
    nlinarith [hpy]
  · intro hpos
    have hx1 : (1 : ℚ) ≤ x := by
      have := Int.le_floor.1 hpos
      exact_mod_cast Int.le_floor.1 (by exact_mod_cast hpos)
    have hnneg : ¬ x < 0 := by linarith
    have hpy : pyInt x = ⌊x⌋ := by rw [pyInt, if_neg hnneg]
    rw [buyStep, if_pos hq]
    simp only
    rw [hpy]
    rw [if_pos (by positivity)]

/-- Price data for the C2 witness: one instrument whose close makes the
allocation buy exactly one lot with zero cash left over. -/
def sdC2 : StockData := [("A", [(0, 2499750 / 5001)])]

/-- Witness for C2: allocating 50 000 at close `2499750/5001` sizes exactly
one lot of 100 shares (`⌊…⌋ = 1`), and the buy executes with the exact debit. -/
theorem buy_sizing_spec_witness :
    0 < ⌊((50000 : ℚ) - calculate_commission 50000 true) /
        apply_slippage (closeAt (lookupSeries sdC2 "A") 0) true / 100⌋ ∧
    buyStep sdC2 0 50000 ⟨50000, [], []⟩ "A" =
      { cash := (50000 : ℚ) -
          (((⌊((50000 : ℚ) - calculate_commission 50000 true) /
              apply_slippage (closeAt (lookupSeries sdC2 "A") 0) true / 100⌋ * 100 : ℤ) : ℚ) *
            apply_slippage (closeAt (lookupSeries sdC2 "A") 0) true +
            calculate_commission 50000 true)
        positions := [] ++
          [("A", (⌊((50000 : ℚ) - calculate_commission 50000 true) /
              apply_slippage (closeAt (lookupSeries sdC2 "A") 0) true / 100⌋ * 100).toNat)]
        trades := [] ++
          [⟨0, "A", .buy, apply_slippage (closeAt (lookupSeries sdC2 "A") 0) true,
            (⌊((50000 : ℚ) - calculate_commission 50000 true) /
              apply_slippage (closeAt (lookupSeries sdC2 "A") 0) true / 100⌋ * 100).toNat,
            ((⌊((50000 : ℚ) - calculate_commission 50000 true) /
              apply_slippage (closeAt (lookupSeries sdC2 "A") 0) true / 100⌋ * 100 : ℤ) : ℚ) *
              apply_slippage (closeAt (lookupSeries sdC2 "A") 0) true,
            calculate_commission 50000 true⟩] } := by
  have hq : hasDate (lookupSeries sdC2 "A") 0 = true := by decide
  have hpos : 0 < ⌊((50000 : ℚ) - calculate_commission 50000 true) /
      apply_slippage (closeAt (lookupSeries sdC2 "A") 0) true / 100⌋ := by
    norm_num [calculate_commission, commissionRateBuy, minCommission,
      apply_slippage, slippage, closeAt, lookupSeries, sdC2, List.find?]
  exact ⟨hpos, (buy_sizing_spec sdC2 0 50000 ⟨50000, [], []⟩ "A" hq).2 hpos⟩

/-! ## Claim C1: the sell phase at a rebalance -/

/-- Whether the sell loop fires for a held code: it is not in the selection
and has a quote today. -/
def fireB (sd : StockData) (date : Date) (sel : List Code) (c : Code) : Bool :=
  !sel.contains c && hasDate (lookupSeries sd c) date

/-- Net proceeds credited by one liquidation: gross at the slippage-adjusted
close, minus `max(sell_rate × gross, min_commission)`. -/
def netProceeds (sd : StockData) (date : Date) (c : Code) (sh : ℕ) : ℚ :=
  (sh : ℚ) * apply_slippage (closeAt (lookupSeries sd c) date) false -
    calculate_commission
      ((sh : ℚ) * apply_slippage (closeAt (lookupSeries sd c) date) false) false

/-- The ledger record appended by one liquidation. -/
def sellTradeFor (sd : StockData) (date : Date) (c : Code) (sh : ℕ) : Trade :=
  ⟨date, c, .sell, apply_slippage (closeAt (lookupSeries sd c) date) false, sh,
    netProceeds sd date c sh,
    calculate_commission
      ((sh : ℚ) * apply_slippage (closeAt (lookupSeries sd c) date) false) false⟩

theorem sellStep_not_fired {sd : StockData} {date : Date} {sel : List Code}
    {c : Code} (st : BTState) (h : fireB sd date sel c = false) :
    sellStep sd date sel st c = st := by
  rw [sellStep]
  by_cases hc : sel.contains c = true
  · rw [if_pos hc]
  · rw [if_neg hc]
    have hq : hasDate (lookupSeries sd c) date = false := by
      rw [fireB] at h
      cases hd : hasDate (lookupSeries sd c) date
      · rfl
      · rw [hd] at h
        simp at h
        exact absurd (by simpa using h) hc
    simp only [hq, Bool.false_eq_true, if_false]

theorem sellStep_fired {sd : StockData} {date : Date} {sel : List Code}
    {c : Code} (st : BTState) (h : fireB sd date sel c = true) :
    sellStep sd date sel st c =
      ⟨st.cash + netProceeds sd date c (lookupShares st.positions c),
       st.positions.eraseP (fun p => p.1 == c),
       st.trades ++ [sellTradeFor sd date c (lookupShares st.positions c)]⟩ := by
  rw [fireB] at h
  have hcont : sel.contains c = false := by
    cases hcc : sel.contains c
    · rfl
    · rw [hcc] at h
      simp at h
  have hq : hasDate (lookupSeries sd c) date = true := by
    cases hd : hasDate (lookupSeries sd c) date
    · rw [hd] at h
      simp at h
    · rfl
  rw [sellStep, if_neg (by rw [hcont]; exact Bool.false_ne_true)]
  simp only [hq, if_true]
  rfl

/-- In a key-unique positions dict, a present pair is what the lookup finds. -/
theorem lookupShares_eq_of_mem {c : Code} {sh : ℕ} :
    ∀ {ps : List (Code × ℕ)}, (ps.map Prod.fst).Nodup → (c, sh) ∈ ps →
      lookupShares ps c = sh := by
  intro ps
  induction ps with
  | nil => intro _ h; exact absurd h (List.not_mem_nil _)
  | cons p t ih =>
    intro hnd hmem
    rw [List.map_cons, List.nodup_cons] at hnd
    rcases List.mem_cons.1 hmem with he | hmem'
    · rw [← he, lookupShares, List.find?_cons_of_pos _ (by simp)]
      rfl
    · have hne : (p.1 == c) = false := by
        cases hpc : p.1 == c
        · rfl
        · exfalso
          apply hnd.1
          have : p.1 = c := by simpa using hpc
          rw [this]
          exact List.mem_map.2 ⟨(c, sh), hmem', rfl⟩
      rw [lookupShares, List.find?_cons_of_neg _ (by simp [hne])]
      exact ih hnd.2 hmem'

/-- Erasing one key of a key-unique dict is filtering that key out. -/
theorem eraseP_key_eq_filter {c : Code} :
    ∀ (ps : List (Code × ℕ)), (ps.map Prod.fst).Nodup →
      ps.eraseP (fun p => p.1 == c) = ps.filter (fun p => !(p.1 == c)) := by
  intro ps
  induction ps with
  | nil => intro _; rfl
  | cons p t ih =>
    intro hnd
    rw [List.map_cons, List.nodup_cons] at hnd
    rw [List.eraseP_cons, List.filter_cons]
    cases hpc : (p.1 == c)
    · simp only [hpc, cond_false, Bool.not_false, if_true]
      rw [ih hnd.2]
    · simp only [hpc, cond_true, Bool.not_true, Bool.false_eq_true, if_false]
      have : t.filter (fun p => !(p.1 == c)) = t := by
        apply List.filter_eq_self.2
        intro q hq
        cases hqc : (q.1 == c)
        · rfl
        · exfalso
          apply hnd.1
          have hpcq : p.1 = c := by simpa using hpc
          have hqcq : q.1 = c := by simpa using hqc
          rw [hpcq, ← hqcq]
          exact List.mem_map.2 ⟨q, hq, rfl⟩
      rw [this]

/-- Erasing a different key leaves a lookup unchanged. -/
theorem lookupShares_eraseP_ne {c c' : Code} (hne : (c == c') = false) :
    ∀ (ps : List (Code × ℕ)),
      lookupShares (ps.eraseP (fun p => p.1 == c')) c = lookupShares ps c := by
  intro ps
  induction ps with
  | nil => rfl
  | cons p t ih =>
    rw [List.eraseP_cons]
    cases hpc : (p.1 == c')
    · simp only [hpc, cond_false]
      cases hpcc : (p.1 == c)
      · rw [lookupShares, List.find?_cons_of_neg _ (by simp [hpcc]),
          lookupShares, List.find?_cons_of_neg _ (by simp [hpcc])]
        exact ih
      · rw [lookupShares, List.find?_cons_of_pos _ (by simp [hpcc]),
          lookupShares, List.find?_cons_of_pos _ (by simp [hpcc])]
    · simp only [hpc, cond_true]
      have hne' : (p.1 == c) = false := by
        have h1 : p.1 = c' := by simpa using hpc
        cases hpcc : (p.1 == c)
        · rfl
        · exfalso
          have h2 : p.1 = c := by simpa using hpcc
          rw [← h1, h2] at hne
          simp at hne
      have hcons : lookupShares (p :: t) c = lookupShares t c := by
        rw [lookupShares, lookupShares, List.find?_cons_of_neg _ (by simp [hne'])]
      rw [hcons]

theorem filter_filter_and {α : Type} (l : List α) (p q : α → Bool) :
    (l.filter p).filter q = l.filter (fun a => p a && q a) := by
  induction l with
  | nil => rfl
  | cons a t ih =>
    cases hp : p a <;> cases hq : q a <;>
      simp [List.filter_cons, hp, hq, ih]

/-- The sell loop characterized: iterating `sellStep` over a duplicate-free
snapshot of codes credits the net proceeds of every firing code (computed at
the pre-phase share counts), filters exactly the fired codes out of the
positions dict, and appends their sell trades in order. -/
theorem sellFold_spec (sd : StockData) (date : Date) (sel : List Code) :
    ∀ (cs : List Code) (s : BTState), cs.Nodup → (s.positions.map Prod.fst).Nodup →
      (cs.foldl (sellStep sd date sel) s).cash =
          s.cash + ((cs.filter (fireB sd date sel)).map
            (fun c => netProceeds sd date c (lookupShares s.positions c))).sum ∧
      (cs.foldl (sellStep sd date sel) s).positions =
          s.positions.filter (fun p => !(cs.contains p.1 && fireB sd date sel p.1)) ∧
      (cs.foldl (sellStep sd date sel) s).trades =
          s.trades ++ (cs.filter (fireB sd date sel)).map
            (fun c => sellTradeFor sd date c (lookupShares s.positions c)) := by
  intro cs
  induction cs with
  | nil =>
    intro s _ _
    refine ⟨by simp, ?_, by simp⟩
    exact (List.filter_eq_self.2 (fun p _ => rfl)).symm
  | cons c cs ih =>
    intro s hnd hknd
    rw [List.nodup_cons] at hnd
    rw [List.foldl_cons]
    cases hf : fireB sd date sel c with
    | false =>
      rw [sellStep_not_fired s hf]
      obtain ⟨ihc, ihp, iht⟩ := ih s hnd.2 hknd
      have hfilter : (c :: cs).filter (fireB sd date sel) = cs.filter (fireB sd date sel) := by
        rw [List.filter_cons, hf]
        simp
      have hpred : ∀ p ∈ s.positions,
          (!((c :: cs).contains p.1 && fireB sd date sel p.1)) =
          (!(cs.contains p.1 && fireB sd date sel p.1)) := by
        intro p _
        rw [List.contains_cons]
        cases hpc : (p.1 == c) with
        | false => rw [Bool.false_or]
        | true =>
          have hp1 : p.1 = c := by simpa using hpc
          rw [hp1, hf, Bool.and_false, Bool.and_false]
      refine ⟨by rw [ihc, hfilter], ?_, by rw [iht, hfilter]⟩
      rw [ihp]
      exact (List.filter_congr hpred).symm
    | true =>
      rw [sellStep_fired s hf]
      have hknd1 : (((s.positions.eraseP (fun p => p.1 == c)).map Prod.fst)).Nodup :=
        hknd.sublist ((List.eraseP_sublist s.positions).map Prod.fst)
      obtain ⟨ihc, ihp, iht⟩ := ih
        ⟨s.cash + netProceeds sd date c (lookupShares s.positions c),
         s.positions.eraseP (fun p => p.1 == c),
         s.trades ++ [sellTradeFor sd date c (lookupShares s.positions c)]⟩
        hnd.2 hknd1
      have hlookN : ∀ c' ∈ cs.filter (fireB sd date sel),
          netProceeds sd date c'
              (lookupShares (s.positions.eraseP (fun p => p.1 == c)) c') =
          netProceeds sd date c' (lookupShares s.positions c') := by
        intro c' hc'
        have hmem : c' ∈ cs := List.mem_of_mem_filter hc'
        have hne : (c' == c) = false := by
          cases h2 : (c' == c) with
          | false => rfl
          | true =>
            exfalso
            have : c' = c := by simpa using h2
            rw [this] at hmem
            exact hnd.1 hmem
        rw [lookupShares_eraseP_ne hne s.positions]
      have hlookT : ∀ c' ∈ cs.filter (fireB sd date sel),
          sellTradeFor sd date c'
              (lookupShares (s.positions.eraseP (fun p => p.1 == c)) c') =
          sellTradeFor sd date c' (lookupShares s.positions c') := by
        intro c' hc'
        have hmem : c' ∈ cs := List.mem_of_mem_filter hc'
        have hne : (c' == c) = false := by
          cases h2 : (c' == c) with
          | false => rfl
          | true =>
            exfalso
            have : c' = c := by simpa using h2
            rw [this] at hmem
            exact hnd.1 hmem
        rw [lookupShares_eraseP_ne hne s.positions]
      have hfilter : (c :: cs).filter (fireB sd date sel) =
          c :: cs.filter (fireB sd date sel) := by
        rw [List.filter_cons, hf]
        simp
      refine ⟨?_, ?_, ?_⟩
      · rw [ihc]
        dsimp only
        rw [List.map_congr_left hlookN, hfilter, List.map_cons, List.sum_cons, add_assoc]
      · rw [ihp]
        dsimp only
        rw [eraseP_key_eq_filter s.positions hknd, filter_filter_and]
        apply List.filter_congr
        intro p _
        dsimp only
        rw [List.contains_cons]
        cases hpc : (p.1 == c) with
        | true =>
          have hp1 : p.1 = c := by simpa using hpc
          rw [hp1, hf]
          simp
        | false =>
          simp
      · rw [iht]
        dsimp only
        rw [List.map_congr_left hlookT, hfilter, List.map_cons,
          List.append_assoc, List.singleton_append]

/-- C1 (amended): in the sell phase of a rebalance, every currently held
instrument that is not in the target selection *and has a quote on that date*
is liquidated fully — the execution price is `close × (1 − slippage)`, the
commission is `max(sell_rate × gross, min_commission)`, the net proceeds
(gross − commission) are credited to cash, a sell trade with exactly those
fields is appended, and the position is removed; cash is credited with the
sum of the net proceeds of exactly those sells; but a held instrument with no
quote on the rebalance date (or one still selected) is silently retained with
its share count, and the ledger is append-only. -/
theorem sell_phase_liquidation
    (sd : StockData) (date : Date) (sel : List Code) (st : BTState)
    (hknd : (st.positions.map Prod.fst).Nodup) :
    (∀ c sh, (c, sh) ∈ st.positions → sel.contains c = false →
      hasDate (lookupSeries sd c) date = true →
        (∀ sh', (c, sh') ∉ (sellPhase sd date sel st).positions) ∧
        sellTradeFor sd date c sh ∈ (sellPhase sd date sel st).trades) ∧
    (sellPhase sd date sel st).cash =
        st.cash + ((st.positions.filter (fun p => fireB sd date sel p.1)).map
          (fun p => netProceeds sd date p.1 p.2)).sum ∧
    (∀ c sh, (c, sh) ∈ st.positions →
      (sel.contains c = true ∨ hasDate (lookupSeries sd c) date = false) →
      (c, sh) ∈ (sellPhase sd date sel st).positions) ∧
    (∃ tl, (sellPhase sd date sel st).trades = st.trades ++ tl) := by
  obtain ⟨hc, hp, ht⟩ :=
    sellFold_spec sd date sel (st.positions.map Prod.fst) st hknd hknd
  rw [sellPhase]
  refine ⟨?_, ?_, ?_, ?_⟩
  · intro c sh hmem hsel hq
    have hfire : fireB sd date sel c = true := by
      rw [fireB, hsel, hq]
      rfl
    have hcont : (st.positions.map Prod.fst).contains c = true := by
      have : c ∈ st.positions.map Prod.fst := List.mem_map.2 ⟨(c, sh), hmem, rfl⟩
      exact List.elem_eq_true_of_mem this
    constructor
    · intro sh' hmem'
      rw [hp] at hmem'
      have := List.of_mem_filter hmem'
      rw [hcont, hfire] at this
      simp at this
    · rw [ht]
      apply List.mem_append_right
      have hcfilter : c ∈ (st.positions.map Prod.fst).filter (fireB sd date sel) :=
        List.mem_filter.2 ⟨List.mem_map.2 ⟨(c, sh), hmem, rfl⟩, hfire⟩
      have hmm := List.mem_map_of_mem
        (fun c => sellTradeFor sd date c (lookupShares st.positions c)) hcfilter
      simp only [lookupShares_eq_of_mem hknd hmem] at hmm
      exact hmm
  · rw [hc]
    congr 1
    rw [List.filter_map, List.map_map]
    have hfeq : st.positions.filter (fireB sd date sel ∘ Prod.fst) =
        st.positions.filter (fun p => fireB sd date sel p.1) :=
      List.filter_congr (fun p _ => rfl)
    rw [hfeq]
    congr 1
    apply List.map_congr_left
    intro p hmem
    dsimp only [Function.comp]
    rw [lookupShares_eq_of_mem hknd (List.mem_of_mem_filter hmem)]
  · intro c sh hmem hdisj
    have hfire : fireB sd date sel c = false := by
      rw [fireB]
      rcases hdisj with h | h
      · rw [h]
        rfl
      · rw [h, Bool.and_false]
    rw [hp]
    apply List.mem_filter.2
    refine ⟨hmem, ?_⟩
    dsimp only
    rw [hfire, Bool.and_false]
    rfl
  · exact ⟨_, ht⟩

/-- Data for the C1 witness: X is quoted on day 1 and dropped, Y stays
selected. -/
def sdW1 : StockData := [("X", [(1, 10)]), ("Y", [(1, 20)])]

/-- Held state for the C1 witness. -/
def stW1 : BTState := ⟨0, [("X", 100), ("Y", 200)], []⟩

/-- Witness for C1: the dropped, quoted instrument X is fully liquidated with
its sell trade recorded, while the still-selected Y is retained. -/
theorem sell_phase_liquidation_witness :
    (∀ sh', ("X", sh') ∉ (sellPhase sdW1 1 ["Y"] stW1).positions) ∧
    sellTradeFor sdW1 1 "X" 100 ∈ (sellPhase sdW1 1 ["Y"] stW1).trades ∧
    ("Y", 200) ∈ (sellPhase sdW1 1 ["Y"] stW1).positions := by
  have h := sell_phase_liquidation sdW1 1 ["Y"] stW1 (by decide)
  have hx := h.1 "X" 100 (by decide) (by decide) (by decide)
  exact ⟨hx.1, hx.2, h.2.2.1 "Y" 200 (by decide) (Or.inl (by decide))⟩

/-- Data for the C1 counterexample: A is held but has no quote on day 1,
while B is quoted (so a rebalance does occur and selects B). -/
def sdC1 : StockData := [("A", [(0, 10)]), ("B", [(0, 1), (1, 1)])]

/-- Scoring that selects B. -/
def scoreC1 : ScoreFn := fun _ => [("B", 1)]

/-- Held state for the C1 counterexample. -/
def stC1 : BTState := ⟨10, [("A", 100)], []⟩

/-- Counterexample to C1 as stated: on a rebalance day whose selection is
`{B}`, the held instrument A is not in the target set, yet it is *not*
liquidated — the sell loop is guarded by `date in data.index` and A has no
quote that day, so the whole rebalance leaves the state unchanged (A keeps
its 100 shares, no sell trade is appended). -/
theorem sell_phase_no_quote_counterexample :
    (selectTop (scoreC1 (availableStocks sdC1 1)) 1).map Prod.fst = ["B"] ∧
    rebalanceStep sdC1 scoreC1 1 1 stC1 = .ok stC1 ∧
    stC1.positions = [("A", 100)] ∧
    stC1.trades = [] := by
  refine ⟨by decide, ?_, rfl, rfl⟩
  have e1 : decide ("B" = "A") = false := by decide
  have e2 : ("A" == "B") = false := by decide
  have e3 : ("B" == "B") = true := by decide
  have e4 : ("A" == "A") = true := by decide
  have e5 : ((0 : ℕ) == 1) = false := by decide
  have e6 : ((1 : ℕ) == 1) = true := by decide
  have e7 : ((0 : ℕ) == 0) = true := by decide
  have e8 : decide ("A" = "B") = false := by decide
  norm_num [rebalanceStep, availableStocks, histUpTo, hasDate, selectTop,
    sortDesc, insertDesc, currentTotalValue, sellPhase, sellStep, buyStep,
    buyPhase, pyInt, lookupSeries, closeAt, lookupShares, apply_slippage,
    calculate_commission, slippage, commissionRateBuy, minCommission,
    sameSetB, fireB, scoreC1, sdC1, stC1, List.find?, List.filterMap,
    List.filter, List.foldl, e1, e2, e3, e4, e5, e6, e7, e8]

/-! ## Claim C8: cash non-negativity -/

/-- One buy debits at most the allocated capital (for a positive close):
the lot sizing bounds `shares × price` by `alloc − commission`. -/
theorem buyStep_cash_ge (sd : StockData) (date : Date) (alloc : ℚ)
    (st : BTState) (c : Code)
    (hpos : 0 < closeAt (lookupSeries sd c) date) :
    st.cash - max alloc 0 ≤ (buyStep sd date alloc st c).cash := by
  have hmax : (0 : ℚ) ≤ max alloc 0 := le_max_right alloc 0
  rw [buyStep]
  by_cases hq : hasDate (lookupSeries sd c) date = true
  · rw [if_pos hq]
    dsimp only
    set price := apply_slippage (closeAt (lookupSeries sd c) date) true with hprice
    have hpricepos : 0 < price := by
      rw [hprice, apply_slippage, if_pos rfl, slippage]
      positivity
    set comm := calculate_commission alloc true with hcomm
    have hcommpos : (0 : ℚ) < comm := by
      rw [hcomm, calculate_commission, minCommission]
      exact lt_max_of_lt_right (by norm_num)
    set x : ℚ := (alloc - comm) / price / 100 with hx
    by_cases hsh : 0 < pyInt x * 100
    · rw [if_pos hsh]
      dsimp only
      have hxpos : ¬ x < 0 := by
        intro hneg
        have : pyInt x ≤ 0 := by
          rw [pyInt, if_pos hneg, neg_nonpos]
          exact Int.le_floor.2 (by push_cast; linarith)
        nlinarith
      have hpy : pyInt x = ⌊x⌋ := by rw [pyInt, if_neg hxpos]
      have hfle : ((⌊x⌋ * 100 : ℤ) : ℚ) * price ≤ alloc - comm := by
        have h1 : ((⌊x⌋ : ℚ)) ≤ x := Int.floor_le x
        have h2 : ((⌊x⌋ * 100 : ℤ) : ℚ) = (⌊x⌋ : ℚ) * 100 := by push_cast; ring
        rw [h2]
        calc (⌊x⌋ : ℚ) * 100 * price ≤ x * 100 * price := by nlinarith
          _ = alloc - comm := by
              rw [hx]
              field_simp
              ring
      have halloc : 0 ≤ alloc := by
        have hshares : (0 : ℚ) < ((⌊x⌋ * 100 : ℤ) : ℚ) := by
          rw [hpy] at hsh
          exact_mod_cast hsh
        nlinarith
      rw [hpy]
      have : max alloc 0 = alloc := max_eq_left halloc
      rw [this]
      linarith
    · rw [if_neg hsh]
      linarith
  · rw [if_neg hq]
    linarith

/-- The allocation loop with a fixed per-stock capital debits at most
`codes.length × max alloc 0` in total. -/
theorem buyPhase_cash_ge (sd : StockData) (date : Date) (alloc : ℚ) :
    ∀ (codes : List Code) (st : BTState),
      (∀ c ∈ codes, 0 < closeAt (lookupSeries sd c) date) →
      st.cash - (codes.length : ℚ) * max alloc 0 ≤
        (buyPhase sd date alloc codes st).cash := by
  intro codes
  induction codes with
  | nil => intro st _; simp [buyPhase]
  | cons c cs ih =>
    intro st hpos
    rw [buyPhase, List.foldl_cons]
    have h1 := buyStep_cash_ge sd date alloc st c (hpos c (List.mem_cons_self c cs))
    have h2 := ih (buyStep sd date alloc st c)
      (fun c' hc' => hpos c' (List.mem_cons_of_mem c hc'))
    rw [buyPhase] at h2
    calc st.cash - ((c :: cs).length : ℚ) * max alloc 0
        = (st.cash - max alloc 0) - (cs.length : ℚ) * max alloc 0 := by
          rw [List.length_cons]
          push_cast
          ring
      _ ≤ (buyStep sd date alloc st c).cash - (cs.length : ℚ) * max alloc 0 := by
          linarith
      _ ≤ _ := h2

/-- C8 (amended): buys can never drive the cash negative — allocating the
current cash equally and lot-sizing each buy keeps cash ≥ 0 whenever it was
≥ 0 — and a sell credits net proceeds that are non-negative whenever the
gross proceeds cover the minimum commission; but a "dust" sell whose gross
proceeds fall below the minimum commission *reduces* cash (by at most
`min_commission`), which is how cash can end up negative. -/
theorem cash_bounds (sd : StockData) (date : Date) :
    (∀ (codes : List Code) (st : BTState),
      (∀ c ∈ codes, 0 < closeAt (lookupSeries sd c) date) → 0 ≤ st.cash →
      0 ≤ (buyPhase sd date (st.cash / (codes.length : ℚ)) codes st).cash) ∧
    (∀ (sel : List Code) (st : BTState) (c : Code),
      0 ≤ closeAt (lookupSeries sd c) date →
      st.cash - minCommission ≤ (sellStep sd date sel st c).cash) ∧
    (∀ (sel : List Code) (st : BTState) (c : Code),
      0 ≤ closeAt (lookupSeries sd c) date →
      minCommission ≤ (lookupShares st.positions c : ℚ) *
          apply_slippage (closeAt (lookupSeries sd c) date) false →
      st.cash ≤ (sellStep sd date sel st c).cash) := by
  have hsell : ∀ (sel : List Code) (st : BTState) (c : Code),
      0 ≤ closeAt (lookupSeries sd c) date →
      (sellStep sd date sel st c = st ∨
        sellStep sd date sel st c =
          ⟨st.cash + netProceeds sd date c (lookupShares st.positions c),
           st.positions.eraseP (fun p => p.1 == c),
           st.trades ++ [sellTradeFor sd date c (lookupShares st.positions c)]⟩) := by
    intro sel st c _
    cases hf : fireB sd date sel c with
    | false => exact Or.inl (sellStep_not_fired st hf)
    | true => exact Or.inr (sellStep_fired st hf)
  have hgross : ∀ (st : BTState) (c : Code),
      0 ≤ closeAt (lookupSeries sd c) date →
      0 ≤ (lookupShares st.positions c : ℚ) *
        apply_slippage (closeAt (lookupSeries sd c) date) false := by
    intro st c hpos
    rw [apply_slippage, if_neg (by simp), slippage]
    positivity
  have hcommsell : ∀ v : ℚ, calculate_commission v false = max (v * (3 / 10000)) 5 := by
    intro v
    rw [calculate_commission, commissionRateSell, minCommission]
    norm_num
  refine ⟨?_, ?_, ?_⟩
  · intro codes st hpos hcash
    cases codes with
    | nil => simpa [buyPhase] using hcash
    | cons c0 cs =>
      have h := buyPhase_cash_ge sd date
        (st.cash / ((c0 :: cs).length : ℚ)) (c0 :: cs) st hpos
      have hlen : (0 : ℚ) < ((c0 :: cs).length : ℚ) := by
        rw [List.length_cons]
        push_cast
        positivity
      have halloc : 0 ≤ st.cash / ((c0 :: cs).length : ℚ) :=
        div_nonneg hcash (le_of_lt hlen)
      rw [max_eq_left halloc] at h
      have hcancel : ((c0 :: cs).length : ℚ) *
          (st.cash / ((c0 :: cs).length : ℚ)) = st.cash := by
        field_simp
      rw [hcancel] at h
      linarith
  · intro sel st c hpos
    have hmc : (0 : ℚ) < minCommission := by rw [minCommission]; norm_num
    rcases hsell sel st c hpos with he | he
    · rw [he]
      linarith
    · rw [he]
      dsimp only
      rw [netProceeds, hcommsell]
      have hg := hgross st c hpos
      rw [minCommission]
      rcases max_cases (((lookupShares st.positions c : ℚ) *
          apply_slippage (closeAt (lookupSeries sd c) date) false) * (3 / 10000)) 5 with
        ⟨hm, hle⟩ | ⟨hm, hlt⟩ <;> rw [hm] <;> nlinarith
  · intro sel st c hpos hmin
    rcases hsell sel st c hpos with he | he
    · rw [he]
    · rw [he]
      dsimp only
      rw [netProceeds, hcommsell]
      have hg := hgross st c hpos
      rw [minCommission] at hmin
      rcases max_cases (((lookupShares st.positions c : ℚ) *
          apply_slippage (closeAt (lookupSeries sd c) date) false) * (3 / 10000)) 5 with
        ⟨hm, hle⟩ | ⟨hm, hlt⟩ <;> rw [hm] <;> nlinarith

/-- Price data for the C8 witness. -/
def sdW8 : StockData := [("A", [(0, 10)])]

/-- Witness for C8's amended bounds, at concrete inputs: an equal-split buy
phase from 50 000 cash stays non-negative; any sell loses at most the minimum
commission; a sell with gross proceeds above the minimum commission does not
reduce cash. -/
theorem cash_bounds_witness :
    0 ≤ (buyPhase sdW8 0
        ((⟨50000, [], []⟩ : BTState).cash / (([("A" : Code)]).length : ℚ))
        ["A"] ⟨50000, [], []⟩).cash ∧
    (⟨0, [("A", 100)], []⟩ : BTState).cash - minCommission ≤
      (sellStep sdW8 0 [] ⟨0, [("A", 100)], []⟩ "A").cash ∧
    (⟨0, [("A", 1000)], []⟩ : BTState).cash ≤
      (sellStep sdW8 0 [] ⟨0, [("A", 1000)], []⟩ "A").cash := by
  have hc := cash_bounds sdW8 0
  have hpos : ∀ c ∈ [("A" : Code)], 0 < closeAt (lookupSeries sdW8 c) 0 := by
    intro c hc'
    simp at hc'
    subst hc'
    norm_num [closeAt, lookupSeries, sdW8, List.find?]
  have hpos1 : (0 : ℚ) ≤ closeAt (lookupSeries sdW8 "A") 0 := le_of_lt (hpos "A" (by simp))
  refine ⟨hc.1 ["A"] ⟨50000, [], []⟩ hpos (by norm_num), hc.2.1 [] _ "A" hpos1, ?_⟩
  refine hc.2.2 [] _ "A" hpos1 ?_
  norm_num [lookupShares, List.find?, apply_slippage, slippage, minCommission,
    closeAt, lookupSeries, sdW8]

/-- Price data for the C8 counterexample: A's close is tuned so that the
day-0 buy leaves exactly zero cash, then A crashes to `0.01`; B is there to
be selected on day 1.  All closes are positive. -/
def sdC8 : StockData :=
  [("A", [(0, 2499750 / 5001), (1, 1 / 100)]), ("B", [(0, 1), (1, 100)])]

/-- Scoring for the C8 counterexample: A wins on day 0 (its available history
has one row), B wins on day 1. -/
def scoreC8 : ScoreFn := fun avail =>
  avail.map (fun p =>
    (p.1, if p.1 == "A" then (if p.2.length == 1 then (1 : ℚ) else 0) else 1 / 2))

/-- Counterexample to C8 as stated: a two-day run over positive closes in
which the portfolio's cash is negative after a trade.  Day 0 buys 100 shares
of A consuming all 50 000 cash (leaving exactly 0); on day 1 the selection
switches to B, and the liquidation of A grosses only `0.9998` — below the
minimum commission of 5 — so the sell *debits* cash, ending at
`−20001/5000 = −4.0002`; the subsequent buy of B is skipped for insufficient
capital, so the sell is the last trade and cash stays negative. -/
theorem negative_cash_counterexample :
    (runBacktest sdC8 (some scoreC8) 1 1 [0, 1]).map
        (fun rs => (rs.bt.cash, rs.bt.positions,
          rs.bt.trades.map (fun t => (t.code, t.side)))) =
      .ok (-20001 / 5000, [], [("A", Side.buy), ("A", Side.sell)]) ∧
    (-20001 / 5000 : ℚ) < 0 := by
  constructor
  · have e1 : ("A" == "A") = true := by decide
    have e2 : ("A" == "B") = false := by decide
    have e3 : ("B" == "A") = false := by decide
    have e4 : ("B" == "B") = true := by decide
    have e5 : ((0 : ℕ) == 0) = true := by decide
    have e6 : ((0 : ℕ) == 1) = false := by decide
    have e7 : ((1 : ℕ) == 0) = false := by decide
    have e8 : ((1 : ℕ) == 1) = true := by decide
    have f1 : ¬ ("B" = "A") := by decide
    have f2 : ¬ ("A" = "B") := by decide
    have g1 : Int.toNat 100 = 100 := rfl
    norm_num [runBacktest, initRunState, dayStep, rebalanceStep,
      availableStocks, histUpTo, hasDate, selectTop, sortDesc, insertDesc,
      currentTotalValue, sellPhase, sellStep, buyPhase, buyStep, dailyValue,
      pyInt, lookupSeries, closeAt, lookupShares, priorClose, apply_slippage,
      calculate_commission, slippage, commissionRateBuy, commissionRateSell,
      minCommission, sameSetB, fireB, scoreC8, sdC8, List.find?,
      List.filterMap, List.filter, List.foldl, List.foldlM, List.enum,
      List.enumFrom, Except.map, exceptOkBind, exceptErrorBind, exceptPureEq,
      e1, e2, e3, e4, e5, e6, e7, e8, f1, f2, g1, max_def]
  · norm_num

end MultiFactor
